import Mathlib

/-!
Verification development for the notion-auto-equation pipeline (src/Main.py).

Strings are modelled as `List Char` (Python `str` is a sequence of
characters).  Each Python function of the pipeline is embedded as an
executable Lean definition carrying the source function's name where
possible:

* `format_content_for_notion` — the two-pass text/equation segmenter
  (regex passes become recursive left-to-right scanners with the same
  leftmost, non-greedy match semantics as Python `re.finditer`);
* `blocks_to_dataframe` / `to_dataframe_safe` — the block normalizer
  (fallible per-block extraction becomes `Except`, an uncaught Python
  exception is the `.error` case);
* `combine_text_and_equations` — the reassembler;
* `get_all_blocks` — the recursive tree fetch over a pure transport model,
  plus a transport model with a failure schedule for the retry/backoff loop;
* `upload_blocks_in_batches` — the batch writer, modelled as the list of
  request payloads issued, in order.
-/

set_option autoImplicit false
set_option maxRecDepth 8000

namespace NotionAutoEq

/-! ## Definitions: the shallow embedding of src/Main.py -/

/-- Rich-text item: mirrors the Python dicts
`{"type": "text", "text": {"content": c}}` and
`{"type": "equation", "equation": {"expression": e}}` used both for the
rich-text runs of fetched blocks and for the parts produced by
`format_content_for_notion`.  (Item types other than `text` and `equation`
are skipped by every loop of the source and are not modelled.) -/
inductive RTItem where
  | text (content : List Char)
  | equation (expression : List Char)
deriving DecidableEq

/-- Python `str.strip()` whitespace test, restricted to the ASCII whitespace
characters (no claim involves non-ASCII whitespace). -/
def isPySpace (c : Char) : Bool :=
  c == ' ' || c == '\t' || c == '\n' || c == '\r' || c == '\x0b' || c == '\x0c'

/-- Python `str.strip()`: drop whitespace from both ends. -/
def pyStrip (l : List Char) : List Char :=
  ((l.dropWhile isPySpace).reverse.dropWhile isPySpace).reverse

/-- True when the list contains no dollar character. -/
def noDollar : List Char → Bool
  | [] => true
  | c :: t => (c != '$') && noDollar t

/-- Locate the leftmost occurrence of two consecutive dollars:
`splitAtTwoDollar l = some (b, r)` means `l = b ++ "$$" ++ r` with the
returned pair being the leftmost one. -/
def splitAtTwoDollar : List Char → Option (List Char × List Char)
  | [] => none
  | [_] => none
  | c1 :: c2 :: rest =>
    if c1 = '$' ∧ c2 = '$' then some ([], rest)
    else
      match splitAtTwoDollar (c2 :: rest) with
      | none => none
      | some (b, r) => some (c1 :: b, r)

/-- Locate the leftmost single dollar. -/
def splitAtDollar : List Char → Option (List Char × List Char)
  | [] => none
  | c :: rest =>
    if c = '$' then some ([], rest)
    else
      match splitAtDollar rest with
      | none => none
      | some (b, r) => some (c :: b, r)

/-- One match of `re.compile(r'\$\$(.+?)\$\$', re.DOTALL)` searched from the
left: the leftmost `$$`, a non-empty lazily-matched content, and the
earliest closing `$$` after at least one content character.
`blockSplit l = some (before, content, rest)` means the first match
decomposes `l` as `before ++ "$$" ++ content ++ "$$" ++ rest`.  When the
leftmost `$$` has no closing delimiter, no match exists anywhere in `l`
(a later opening would need an even later closing pair). -/
def blockSplit (l : List Char) : Option (List Char × List Char × List Char) :=
  match splitAtTwoDollar l with
  | none => none
  | some (before, after) =>
    match after with
    | [] => none
    | a :: t =>
      match splitAtTwoDollar t with
      | none => none
      | some (mid, rest) => some (before, a :: mid, rest)

/-- Pass 1 of `format_content_for_notion`: the scan of
`re.compile(r'\$\$(.+?)\$\$', re.DOTALL).finditer(block)`, fuelled for
structural recursion (one unit of fuel per match; the input length is
always enough, see `blockPass`).  Text between matches is emitted when
non-empty, and the stripped content of each match is emitted as an
equation part when non-empty after stripping; the remainder after the
last match is emitted when non-empty. -/
def blockPassF : Nat → List Char → List RTItem
  | 0, l => if l = [] then [] else [.text l]
  | n + 1, l =>
    match blockSplit l with
    | none => if l = [] then [] else [.text l]
    | some (before, content, rest) =>
      (if before = [] then [] else [.text before]) ++
      (if pyStrip content = [] then [] else [.equation (pyStrip content)]) ++
      blockPassF n rest

/-- Pass 1 at its canonical fuel. -/
def blockPass (l : List Char) : List RTItem := blockPassF l.length l

/-- Closing search for one inline opening `$`: given the characters after the
opening, the candidate content runs to the first later `$` (so the content is
non-empty); the match fails when a newline occurs in the content, because `.`
without `re.DOTALL` does not match a newline. -/
def tryClose (t : List Char) : Option (List Char × List Char) :=
  match t with
  | [] => none
  | a :: t2 =>
    match splitAtDollar t2 with
    | none => none
    | some (mid, rest) =>
      if (a :: mid).contains '\n' then none else some (a :: mid, rest)

/-- Leftmost inline-equation match of `re.compile(r'\$(.+?)\$')`:
`findInline l = some (pre, content, rest)` with
`l = pre ++ "$" ++ content ++ "$" ++ rest`.  An opening dollar whose
candidate content contains a newline is skipped (the engine resumes from the
next character). -/
def findInline (l : List Char) : Option (List Char × List Char × List Char) :=
  match l with
  | [] => none
  | c :: t =>
    if c = '$' then
      match tryClose t with
      | some (content, rest) => some ([], content, rest)
      | none =>
        match findInline t with
        | none => none
        | some (p, cc, r) => some (c :: p, cc, r)
    else
      match findInline t with
      | none => none
      | some (p, cc, r) => some (c :: p, cc, r)

/-- Pass 2 of `format_content_for_notion`: the inline `$...$` re-scan
applied to one text part produced by pass 1, fuelled for structural
recursion (one unit of fuel per match; the input length is always enough,
see `inlinePass`). -/
def inlinePassF : Nat → List Char → List RTItem
  | 0, l => if l = [] then [] else [.text l]
  | n + 1, l =>
    match findInline l with
    | none => if l = [] then [] else [.text l]
    | some (pre, content, rest) =>
      (if pre = [] then [] else [.text pre]) ++
      (if pyStrip content = [] then [] else [.equation (pyStrip content)]) ++
      inlinePassF n rest

/-- Pass 2 at its canonical fuel. -/
def inlinePass (l : List Char) : List RTItem := inlinePassF l.length l

/-- Pass 2 applied to one part: equation parts from pass 1 pass through
unchanged, text parts are re-scanned for inline equations. -/
def inlineOnPart : RTItem → List RTItem
  | .text t => inlinePass t
  | .equation e => [.equation e]

/-- The segmenter `format_content_for_notion` of src/Main.py (string case):
pass 1 splits on `$$...$$` regions, pass 2 re-scans the resulting text parts
for `$...$` regions, producing a flat ordered list of parts. -/
def format_content_for_notion (l : List Char) : List RTItem :=
  ((blockPass l).map inlineOnPart).flatten

/-- Fetched block, mirroring the dict fields that the pipeline reads:
`block['id']`, `block['type']`, `block['has_children']`,
`block[block_type]['rich_text']` (`none` when the key is absent),
`block['code']['text']` (the code payload the source expects, `none` when
absent), and `block['equation']['expression']` (`none` when absent). -/
structure Block where
  id : String
  type : String
  hasChildren : Bool := false
  richText : Option (List RTItem) := none
  codeText : Option (List RTItem) := none
  expression : Option (List Char) := none
deriving DecidableEq

/-- Flat record (one row of the pandas DataFrame): id, type, content. -/
structure Row where
  id : String
  type : String
  content : List Char
deriving DecidableEq

/-- Content built by the rich-text loop of `blocks_to_dataframe`: text items
append their content, equation items append `"$$ expression $$"`. -/
def richTextContent (items : List RTItem) : List Char :=
  items.foldl (fun acc item =>
    acc ++ match item with
    | .text c => c
    | .equation e => '$' :: '$' :: ' ' :: (e ++ [' ', '$', '$'])) []

/-- Per-block extraction: the loop body of `blocks_to_dataframe`.  A Python
exception on a malformed payload (KeyError / IndexError) is `.error`:
a `code` block is read as `block['code']['text'][0]['text']['content']`
(only reached when the payload has no `rich_text` key), a `quote` block
reaching its branch has no `rich_text` key so the subscript raises, an
`equation` block without an expression raises. -/
def extractRow (b : Block) : Except String Row :=
  match b.richText with
  | some items => .ok ⟨b.id, b.type, richTextContent items⟩
  | none =>
    if b.type = "code" then
      match b.codeText with
      | some (.text c :: _) => .ok ⟨b.id, b.type, c⟩
      | some (.equation _ :: _) => .error "KeyError: text"
      | some [] => .error "IndexError: list index out of range"
      | none => .error "KeyError: text"
    else if b.type = "quote" then
      .error "KeyError: rich_text"
    else if b.type = "equation" then
      match b.expression with
      | some e => .ok ⟨b.id, b.type, '$' :: '$' :: ' ' :: (e ++ [' ', '$', '$'])⟩
      | none => .error "KeyError: expression"
    else .ok ⟨b.id, b.type, []⟩

/-- `blocks_to_dataframe`: the loop has no per-block handler, so the first
malformed block raises out of the whole function (all rows, including the
ones already appended, are lost). -/
def blocks_to_dataframe : List Block → Except String (List Row)
  | [] => .ok []
  | b :: bs =>
    match extractRow b with
    | .error e => .error e
    | .ok row =>
      match blocks_to_dataframe bs with
      | .error e => .error e
      | .ok rows => .ok (row :: rows)

/-- `to_dataframe_safe`: catches any exception raised by
`blocks_to_dataframe` and falls back to an empty DataFrame. -/
def to_dataframe_safe (blocks : List Block) : List Row :=
  match blocks_to_dataframe blocks with
  | .ok rows => rows
  | .error _ => []

/-- Outbound block payload built by `combine_text_and_equations`:
`divider` has an empty payload, rich-text blocks carry their type tag and a
`rich_text` array, code blocks carry a `text` array and a language tag. -/
inductive OutboundBlock where
  | divider
  | withRichText (type : String) (rich_text : List RTItem)
  | code (text : List RTItem) (language : String)
deriving DecidableEq

/-- Loop body of `combine_text_and_equations` for one row: the outbound
blocks appended for that row (empty or a singleton); a paragraph is only
appended when its segmented content is non-empty. -/
def combineRow (row : Row) : List OutboundBlock :=
  let c := format_content_for_notion row.content
  if row.type = "divider" then [.divider]
  else if row.type = "heading_3" ∨ row.type = "heading_2" ∨ row.type = "heading_1" then
    [.withRichText row.type c]
  else if row.type = "quote" then [.withRichText "quote" c]
  else if row.type = "paragraph" then
    if c = [] then [] else [.withRichText "paragraph" c]
  else if row.type = "code" then [.code c "python"]
  else if row.type = "bulleted_list_item" then [.withRichText "bulleted_list_item" c]
  else []

/-- `combine_text_and_equations`: each row appends its blocks in order. -/
def combine_text_and_equations (rows : List Row) : List OutboundBlock :=
  (rows.map combineRow).flatten

/-- `upload_blocks_in_batches`, modelled as the list of request payloads
(one `children` slice per PATCH request) in issue order, mirroring
`for i in range(0, total, batch_size): batch = combined_blocks[i:i+batch_size]`.
A `batch_size` of 0 makes the source's `range` raise `ValueError` before any
request is issued; no claim exercises it and no request is recorded. -/
def upload_blocks_in_batches : List OutboundBlock → Nat → List (List OutboundBlock)
  | [], _ => []
  | _ :: _, 0 => []
  | a :: l, n + 1 =>
    ((a :: l).take (n + 1)) :: upload_blocks_in_batches ((a :: l).drop (n + 1)) (n + 1)
termination_by l _ => l.length
decreasing_by
  simp [List.length_drop]; omega

/-- Remote block tree node: the block's data plus its children.  The remote
API addresses children through a separate request keyed on the parent id;
the tree is the transport's state. -/
inductive BTree where
  | node (data : Block) (children : List BTree)

/-- Block served by the transport for a tree node: the API reports
`has_children` according to the node's actual children. -/
def serveBlock : BTree → Block
  | .node d cs => { d with hasChildren := !cs.isEmpty }

/-- `get_all_blocks` over the pure transport model (each child list is
delivered in one page, no transport failures): for each served child,
append it and, when it signals children, recurse into it and splice the
returned descendants right after it, before the next sibling. -/
def get_all_blocks : List BTree → List Block
  | [] => []
  | .node d cs :: ts =>
    serveBlock (.node d cs) ::
      ((if (serveBlock (.node d cs)).hasChildren then get_all_blocks cs else []) ++
       get_all_blocks ts)

/-- Depth-first pre-order flattening, as the spec words it: each node, then
its entire subtree, then its next sibling. -/
def preorderFlat : List BTree → List Block
  | [] => []
  | .node d cs :: ts => serveBlock (.node d cs) :: (preorderFlat cs ++ preorderFlat ts)

/-- Outcome of one transport request in the failure-schedule model: a
transient `requests` failure, or a page of results with the `has_more`
flag. -/
inductive FetchOutcome where
  | fail
  | ok (results : List Block) (hasMore : Bool)
deriving DecidableEq

/-- The inner retry loop of `get_all_blocks` for one page.  Requests are
numbered globally by `i` and the schedule `oracle` maps a request number to
its outcome; `attempt` is the failure counter, starting at 0.  Returns the
page (`none` when retries are exhausted), the backoff sleeps performed
(`min (2 * attempt) 5` after each failure except the final one), and the
next request number. -/
def retryOnce (oracle : Nat → FetchOutcome) (maxRetries : Nat) (i attempt : Nat) :
    Option (List Block × Bool) × List Nat × Nat :=
  if h : attempt < maxRetries then
    match oracle i with
    | .ok results hasMore => (some (results, hasMore), [], i + 1)
    | .fail =>
      if attempt + 1 < maxRetries then
        let r := retryOnce oracle maxRetries (i + 1) (attempt + 1)
        (r.1, min (2 * (attempt + 1)) 5 :: r.2.1, r.2.2)
      else (none, [], i + 1)
  else (none, [], i)
termination_by maxRetries - attempt
decreasing_by
  omega

mutual
/-- The page loop of `get_all_blocks` over the failure-schedule transport.
`fuel` bounds the number of loop iterations and recursion depth (the
schedule could assert `has_more` forever); claims are settled at ample
fuel.  Returns the accumulated blocks, the sleeps performed, and the next
request number.  A page whose retries are exhausted contributes nothing and
ends the loop, so the call returns exactly the blocks accumulated so far —
the source's `return blocks` — without raising. -/
def get_all_blocks_sched (oracle : Nat → FetchOutcome) (maxRetries : Nat) :
    Nat → Nat → List Block × List Nat × Nat
  | 0, i => ([], [], i)
  | fuel + 1, i =>
    match retryOnce oracle maxRetries i 0 with
    | (none, sl, i1) => ([], sl, i1)
    | (some (results, hasMore), sl, i1) =>
      let p := processResults oracle maxRetries fuel results i1
      if hasMore then
        let rest := get_all_blocks_sched oracle maxRetries fuel p.2.2
        (p.1 ++ rest.1, sl ++ p.2.1 ++ rest.2.1, rest.2.2)
      else (p.1, sl ++ p.2.1, p.2.2)
termination_by fuel i => (fuel, 0)

/-- The `for block in results` body of `get_all_blocks`: append each block
and, when it reports children, recurse into it first. -/
def processResults (oracle : Nat → FetchOutcome) (maxRetries : Nat) :
    Nat → List Block → Nat → List Block × List Nat × Nat
  | _, [], i => ([], [], i)
  | fuel, b :: bs, i =>
    if b.hasChildren then
      let c := get_all_blocks_sched oracle maxRetries fuel i
      let rest := processResults oracle maxRetries fuel bs c.2.2
      (b :: (c.1 ++ rest.1), c.2.1 ++ rest.2.1, rest.2.2)
    else
      let rest := processResults oracle maxRetries fuel bs i
      (b :: rest.1, rest.2.1, rest.2.2)
termination_by fuel bs i => (fuel, bs.length + 1)
end

/-- Concatenation of the text-run values of a part list, in order
(equation runs ignored). -/
def textConcat : List RTItem → List Char
  | [] => []
  | .text t :: r => t ++ textConcat r
  | .equation _ :: r => textConcat r

/-- The input with every inline-equation match (delimiters included)
removed, fuelled like `inlinePassF` and using the same match finder. -/
def eraseInlineF : Nat → List Char → List Char
  | 0, l => l
  | n + 1, l =>
    match findInline l with
    | none => l
    | some (pre, _content, rest) => pre ++ eraseInlineF n rest

/-- `eraseInlineF` at its canonical fuel. -/
def eraseInline (l : List Char) : List Char := eraseInlineF l.length l

/-- The input with every equation-delimited region of either pass
(delimiters included) removed: block-equation regions are removed by the
same match finder as pass 1, and each text gap is then cleaned of its
inline-equation regions. -/
def eraseRegionsF : Nat → List Char → List Char
  | 0, l => eraseInline l
  | n + 1, l =>
    match blockSplit l with
    | none => eraseInline l
    | some (before, _content, rest) => eraseInline before ++ eraseRegionsF n rest

/-- `eraseRegionsF` at its canonical fuel. -/
def eraseRegions (l : List Char) : List Char := eraseRegionsF l.length l

/-- Image of one run under the round trip: text runs unchanged, equation
expressions stripped. -/
def normRun : RTItem → RTItem
  | .text t => .text t
  | .equation e => .equation (pyStrip e)

/-- Direct recursion computing `richTextContent` (the source's `foldl`
accumulates the same string). -/
def runsFlat : List RTItem → List Char
  | [] => []
  | .text t :: r => t ++ runsFlat r
  | .equation e :: r => '$' :: '$' :: ' ' :: (e ++ ' ' :: '$' :: '$' :: runsFlat r)

/-- True when the head of the part list is a text run. -/
def headIsText : List RTItem → Bool
  | .text _ :: _ => true
  | _ => false

/-- The hypotheses of claim C10 on a run list, plus the amendment that no
two text runs are adjacent: text runs are non-empty and dollar-free, and
equation expressions are dollar-free and non-empty after stripping. -/
def goodRuns : List RTItem → Bool
  | [] => true
  | .text t :: rest =>
    !t.isEmpty && noDollar t && !headIsText rest && goodRuns rest
  | .equation e :: rest =>
    noDollar e && !(pyStrip e).isEmpty && goodRuns rest

/-! ## Theorems -/

theorem splitAtTwoDollar_sound : ∀ (l b r : List Char),
    splitAtTwoDollar l = some (b, r) → l = b ++ '$' :: '$' :: r := by
  intro l
  induction l with
  | nil => intro b r h; simp [splitAtTwoDollar] at h
  | cons c1 t ih =>
    intro b r h
    match t with
    | [] => simp [splitAtTwoDollar] at h
    | c2 :: rest =>
      simp only [splitAtTwoDollar] at h
      split at h
      · rename_i h12
        injection h with h'
        injection h' with hb hr
        subst hb; subst hr
        obtain ⟨e1, e2⟩ := h12
        subst e1; subst e2; rfl
      · split at h
        · cases h
        · rename_i b0 r0 hs
          injection h with h'
          injection h' with hb hr
          subst hb; subst hr
          have := ih b0 r0 hs
          rw [List.cons_append, ← this]

theorem splitAtDollar_sound : ∀ (l b r : List Char),
    splitAtDollar l = some (b, r) → l = b ++ '$' :: r := by
  intro l
  induction l with
  | nil => intro b r h; simp [splitAtDollar] at h
  | cons c t ih =>
    intro b r h
    simp only [splitAtDollar] at h
    split at h
    · rename_i hc
      injection h with h'
      injection h' with hb hr
      subst hb; subst hr; subst hc; rfl
    · split at h
      · cases h
      · rename_i b0 r0 hs
        injection h with h'
        injection h' with hb hr
        subst hb; subst hr
        have := ih b0 r0 hs
        rw [List.cons_append, ← this]

theorem blockSplit_sound : ∀ (l p c r : List Char),
    blockSplit l = some (p, c, r) →
    l = p ++ '$' :: '$' :: (c ++ '$' :: '$' :: r) ∧ c ≠ [] := by
  intro l p c r h
  simp only [blockSplit] at h
  cases h1 : splitAtTwoDollar l with
  | none => rw [h1] at h; simp at h
  | some pa =>
    rw [h1] at h
    obtain ⟨before, after⟩ := pa
    cases after with
    | nil => simp at h
    | cons a t =>
      simp only [] at h
      cases h2 : splitAtTwoDollar t with
      | none => rw [h2] at h; simp at h
      | some pb =>
        rw [h2] at h
        obtain ⟨mid, rest⟩ := pb
        simp at h
        obtain ⟨hp, hc, hr⟩ := h
        subst hp; subst hc; subst hr
        have e1 := splitAtTwoDollar_sound l before (a :: t) h1
        have e2 := splitAtTwoDollar_sound t mid rest h2
        constructor
        · rw [e1, e2]; simp
        · simp

theorem tryClose_sound : ∀ (t c r : List Char),
    tryClose t = some (c, r) → t = c ++ '$' :: r ∧ c ≠ [] := by
  intro t c r h
  match t with
  | [] => simp [tryClose] at h
  | a :: t2 =>
    simp only [tryClose] at h
    split at h
    · cases h
    · rename_i mid rest hsplit
      split at h
      · cases h
      · injection h with h'
        injection h' with hc hr
        subst hc; subst hr
        have := splitAtDollar_sound t2 mid rest hsplit
        constructor
        · rw [this]; rfl
        · intro hx; cases hx

theorem findInline_sound : ∀ (l p c r : List Char),
    findInline l = some (p, c, r) → l = p ++ '$' :: (c ++ '$' :: r) ∧ c ≠ [] := by
  intro l
  induction l with
  | nil => intro p c r h; simp [findInline] at h
  | cons x t ih =>
    intro p c r h
    simp only [findInline] at h
    split at h
    · rename_i hx
      split at h
      · rename_i content rest htc
        injection h with h'
        injection h' with hp h''
        injection h'' with hc hr
        subst hp; subst hc; subst hr
        obtain ⟨ht, hne⟩ := tryClose_sound t content rest htc
        subst hx
        constructor
        · rw [ht]; rfl
        · exact hne
      · split at h
        · cases h
        · rename_i p0 cc0 r0 hfi
          injection h with h'
          injection h' with hp h''
          injection h'' with hc hr
          subst hp; subst hc; subst hr
          obtain ⟨ht, hne⟩ := ih p0 cc0 r0 hfi
          constructor
          · rw [List.cons_append, ← ht]
          · exact hne
    · split at h
      · cases h
      · rename_i p0 cc0 r0 hfi
        injection h with h'
        injection h' with hp h''
        injection h'' with hc hr
        subst hp; subst hc; subst hr
        obtain ⟨ht, hne⟩ := ih p0 cc0 r0 hfi
        constructor
        · rw [List.cons_append, ← ht]
        · exact hne

theorem splitAtTwoDollar_none_of_noDollar : ∀ (l : List Char),
    noDollar l = true → splitAtTwoDollar l = none := by
  intro l
  induction l with
  | nil => intro _; rfl
  | cons c t ih =>
    intro h
    simp only [noDollar, Bool.and_eq_true, bne_iff_ne] at h
    obtain ⟨hc, ht⟩ := h
    match t with
    | [] => rfl
    | c2 :: rest =>
      have hrec := ih ht
      simp only [splitAtTwoDollar]
      rw [if_neg (fun hx => hc hx.1), hrec]

theorem getLast?_ne_of_noDollar : ∀ (l : List Char),
    noDollar l = true → l.getLast? ≠ some '$' := by
  intro l
  induction l with
  | nil => intro _ h; cases h
  | cons c t ih =>
    intro h
    simp only [noDollar, Bool.and_eq_true, bne_iff_ne] at h
    obtain ⟨hc, ht⟩ := h
    match t with
    | [] =>
      intro hh
      simp [List.getLast?] at hh
      exact hc hh
    | c2 :: rest =>
      rw [List.getLast?_cons_cons]
      exact ih ht

theorem splitAtTwoDollar_none_tail : ∀ (c : Char) (l : List Char),
    splitAtTwoDollar (c :: l) = none → splitAtTwoDollar l = none := by
  intro c l h
  match l with
  | [] => rfl
  | c2 :: rest =>
    simp only [splitAtTwoDollar] at h
    by_cases hp : c = '$' ∧ c2 = '$'
    · rw [if_pos hp] at h; cases h
    · rw [if_neg hp] at h
      cases hi : splitAtTwoDollar (c2 :: rest) with
      | none => rfl
      | some pb => rw [hi] at h; obtain ⟨x, y⟩ := pb; simp at h

/-- Appending an explicit `"$$" ++ w` to a pair-free list that does not end
in `'$'` puts the leftmost pair exactly at the seam. -/
theorem splitAtTwoDollar_append : ∀ (t w : List Char),
    splitAtTwoDollar t = none → t.getLast? ≠ some '$' →
    splitAtTwoDollar (t ++ '$' :: '$' :: w) = some (t, w) := by
  intro t
  induction t with
  | nil => intro w _ _; simp [splitAtTwoDollar]
  | cons c t' ih =>
    intro w hnone hlast
    cases t' with
    | nil =>
      have hc : c ≠ '$' := by
        intro hx
        exact hlast (by rw [hx]; rfl)
      show splitAtTwoDollar (c :: '$' :: '$' :: w) = some ([c], w)
      simp only [splitAtTwoDollar]
      rw [if_neg (fun hx => hc hx.1)]
      simp
    | cons c2 rest =>
      simp only [splitAtTwoDollar] at hnone
      by_cases hp : c = '$' ∧ c2 = '$'
      · rw [if_pos hp] at hnone; cases hnone
      · rw [if_neg hp] at hnone
        have hinner : splitAtTwoDollar (c2 :: rest) = none := by
          cases hi : splitAtTwoDollar (c2 :: rest) with
          | none => rfl
          | some pb => rw [hi] at hnone; obtain ⟨x, y⟩ := pb; simp at hnone
        have hlast' : (c2 :: rest).getLast? ≠ some '$' := by
          rw [← List.getLast?_cons_cons (a := c)]
          exact hlast
        have hrec := ih w hinner hlast'
        show splitAtTwoDollar (c :: c2 :: (rest ++ '$' :: '$' :: w)) = some (c :: c2 :: rest, w)
        simp only [splitAtTwoDollar]
        rw [if_neg hp]
        have : c2 :: (rest ++ '$' :: '$' :: w) = (c2 :: rest) ++ '$' :: '$' :: w := rfl
        rw [this, hrec]

theorem blockSplit_none_of_none : ∀ (l : List Char),
    splitAtTwoDollar l = none → blockSplit l = none := by
  intro l h
  simp [blockSplit, h]

/-- The decomposition produced by the lazy regex on an input of the
well-delimited shape `A ++ "$$" ++ E ++ "$$" ++ B`: provided `A` is
dollar-free and `E` has no `"$$"` inside and does not end in `'$'`, the
first match is exactly the written delimiters around `E`. -/
theorem blockSplit_append : ∀ (A E B : List Char),
    noDollar A = true →
    splitAtTwoDollar E = none → E.getLast? ≠ some '$' → E ≠ [] →
    blockSplit (A ++ '$' :: '$' :: (E ++ '$' :: '$' :: B)) = some (A, E, B) := by
  intro A E B hA hE hLast hne
  have h1 : splitAtTwoDollar (A ++ '$' :: '$' :: (E ++ '$' :: '$' :: B)) =
      some (A, E ++ '$' :: '$' :: B) :=
    splitAtTwoDollar_append A (E ++ '$' :: '$' :: B)
      (splitAtTwoDollar_none_of_noDollar A hA) (getLast?_ne_of_noDollar A hA)
  match E, hne with
  | e1 :: E', _ =>
    have hE' : splitAtTwoDollar E' = none := splitAtTwoDollar_none_tail e1 E' hE
    have hLast' : E'.getLast? ≠ some '$' := by
      cases E' with
      | nil => intro hx; cases hx
      | cons e2 E'' =>
        rw [← List.getLast?_cons_cons (a := e1)]
        exact hLast
    have h2 : splitAtTwoDollar (E' ++ '$' :: '$' :: B) = some (E', B) :=
      splitAtTwoDollar_append E' B hE' hLast'
    simp only [blockSplit]
    rw [h1]
    have hshape : (e1 :: E') ++ '$' :: '$' :: B = e1 :: (E' ++ '$' :: '$' :: B) := rfl
    simp only [hshape]
    rw [h2]

theorem blockPassF_nil : ∀ (n : Nat), blockPassF n [] = [] := by
  intro n
  cases n with
  | zero => rfl
  | succ n => rfl

/-- On a dollar-free list neither fuel level nor matching matters: the whole
list is a single text part (or nothing when empty). -/
theorem blockPassF_of_noDollar : ∀ (n : Nat) (l : List Char), noDollar l = true →
    blockPassF n l = if l = [] then [] else [.text l] := by
  intro n l h
  cases n with
  | zero => rfl
  | succ n =>
    simp only [blockPassF]
    rw [blockSplit_none_of_none l (splitAtTwoDollar_none_of_noDollar l h)]

theorem findInline_none_of_noDollar : ∀ (l : List Char),
    noDollar l = true → findInline l = none := by
  intro l
  induction l with
  | nil => intro _; rfl
  | cons c t ih =>
    intro h
    simp only [noDollar, Bool.and_eq_true, bne_iff_ne] at h
    obtain ⟨hc, ht⟩ := h
    simp only [findInline]
    rw [if_neg hc, ih ht]

theorem inlinePassF_of_noDollar : ∀ (n : Nat) (l : List Char), noDollar l = true →
    inlinePassF n l = if l = [] then [] else [.text l] := by
  intro n l h
  cases n with
  | zero => rfl
  | succ n =>
    simp only [inlinePassF]
    rw [findInline_none_of_noDollar l h]

theorem inlinePass_of_noDollar : ∀ (l : List Char), noDollar l = true → l ≠ [] →
    inlinePass l = [.text l] := by
  intro l h hne
  unfold inlinePass
  rw [inlinePassF_of_noDollar l.length l h, if_neg hne]

theorem blockPassF_congr : ∀ (n m : Nat) (l : List Char), l.length ≤ n → l.length ≤ m →
    blockPassF n l = blockPassF m l := by
  intro n
  induction n with
  | zero =>
    intro m l h1 _
    have : l = [] := by
      cases l with
      | nil => rfl
      | cons a t => simp at h1
    rw [this, blockPassF_nil, blockPassF_nil]
  | succ n ih =>
    intro m l h1 h2
    cases m with
    | zero =>
      have : l = [] := by
        cases l with
        | nil => rfl
        | cons a t => simp at h2
      rw [this, blockPassF_nil, blockPassF_nil]
    | succ m =>
      simp only [blockPassF]
      cases hbs : blockSplit l with
      | none => rfl
      | some tr =>
        obtain ⟨p, cc, r⟩ := tr
        obtain ⟨hsh, hcne⟩ := blockSplit_sound l p cc r hbs
        have hlen : l.length = p.length + 2 + (cc.length + 2 + r.length) := by
          rw [hsh]; simp [List.length_append]; omega
        have hcpos : 0 < cc.length := List.length_pos.mpr hcne
        have hr := ih m r (by omega) (by omega)
        simp [hr]

theorem pyStrip_nil : pyStrip [] = [] := rfl

theorem dropWhile_space_append_aux : ∀ (l : List Char),
    ((l ++ [' ']).dropWhile isPySpace).reverse.dropWhile isPySpace =
    (l.dropWhile isPySpace).reverse.dropWhile isPySpace := by
  intro l
  induction l with
  | nil => decide
  | cons c t ih =>
    by_cases hc : isPySpace c = true
    · simp [List.dropWhile_cons, hc, ih]
    · simp [List.dropWhile_cons, hc, show isPySpace ' ' = true from by decide]

/-- `" " ++ e ++ " "` strips to the same thing as `e` (the wrapper that
`blocks_to_dataframe` writes around an equation expression). -/
theorem pyStrip_pad : ∀ (e : List Char), pyStrip (' ' :: (e ++ [' '])) = pyStrip e := by
  intro e
  unfold pyStrip
  have h1 : (' ' :: (e ++ [' '])).dropWhile isPySpace = (e ++ [' ']).dropWhile isPySpace := by
    rw [List.dropWhile_cons]
    simp only [show isPySpace ' ' = true from by decide, if_true]
  rw [h1, dropWhile_space_append_aux]

theorem blockPassF_succ_of_split : ∀ (n : Nat) (l p c r : List Char),
    blockSplit l = some (p, c, r) →
    blockPassF (n + 1) l =
      (if p = [] then [] else [.text p]) ++
      (if pyStrip c = [] then [] else [.equation (pyStrip c)]) ++
      blockPassF n r := by
  intro n l p c r h
  simp only [blockPassF]
  rw [h]

theorem blockPass_nil : blockPass [] = [] := rfl

theorem blockPass_of_noDollar : ∀ (l : List Char), noDollar l = true →
    blockPass l = if l = [] then [] else [.text l] := by
  intro l h
  unfold blockPass
  exact blockPassF_of_noDollar l.length l h

/-- Unfolding one block-equation match of pass 1 without fuel bookkeeping. -/
theorem blockPass_split_step : ∀ (l p c r : List Char),
    blockSplit l = some (p, c, r) →
    blockPass l =
      (if p = [] then [] else [.text p]) ++
      (if pyStrip c = [] then [] else [.equation (pyStrip c)]) ++
      blockPass r := by
  intro l p c r h
  obtain ⟨hsh, hcne⟩ := blockSplit_sound l p c r h
  have hcpos : 0 < c.length := List.length_pos.mpr hcne
  have hlen : r.length + 5 ≤ l.length := by
    rw [hsh]; simp [List.length_append]; omega
  unfold blockPass
  have hL : l.length = (l.length - 1) + 1 := by omega
  rw [hL, blockPassF_succ_of_split (l.length - 1) l p c r h,
      blockPassF_congr (l.length - 1) r.length r (by omega) (le_refl _)]

/-- C1 counterexample: the input `"$$x$$$"` has the claimed form
`A ++ "$$" ++ E ++ "$$" ++ B` exactly for `A = ""`, `E = "x$"`, `B = ""`
(`B` may not contain `'$'`), and `E.trim() = "x$"` is non-empty; yet
`segment` does not return `[equation "x$"]`: the lazy regex closes the
region at the earliest `"$$"`, producing `[equation "x", text "$"]`. -/
theorem C1_counterexample :
    format_content_for_notion
        (([] : List Char) ++ '$' :: '$' :: ("x$".toList ++ '$' :: '$' :: ([] : List Char))) =
      [.equation "x".toList, .text "$".toList] ∧
    format_content_for_notion
        (([] : List Char) ++ '$' :: '$' :: ("x$".toList ++ '$' :: '$' :: ([] : List Char))) ≠
      [.equation (pyStrip "x$".toList)] := by
  decide

/-- C1 (amended): for every input `A ++ "$$" ++ E ++ "$$" ++ B` where `A`
and `B` contain no `'$'`, `E.trim()` is non-empty, and in addition `E`
contains no `"$$"` substring and does not end in `'$'` (so the written
closing delimiter is the earliest one the lazy regex can take), `segment`
returns the text run `A` (if non-empty), the equation run `E.trim()`, and
the text run `B` (if non-empty), in that order. -/
theorem C1_theorem : ∀ (A E B : List Char),
    noDollar A = true → noDollar B = true →
    splitAtTwoDollar E = none → E.getLast? ≠ some '$' →
    pyStrip E ≠ [] →
    format_content_for_notion (A ++ '$' :: '$' :: (E ++ '$' :: '$' :: B)) =
      (if A = [] then [] else [.text A]) ++
      [.equation (pyStrip E)] ++
      (if B = [] then [] else [.text B]) := by
  intro A E B hA hB hE hLast hstrip
  have hEne : E ≠ [] := by
    intro hx; rw [hx] at hstrip; exact hstrip rfl
  have hbs := blockSplit_append A E B hA hE hLast hEne
  unfold format_content_for_notion
  rw [blockPass_split_step _ A E B hbs, blockPass_of_noDollar B hB, if_neg hstrip]
  by_cases hA0 : A = []
  · by_cases hB0 : B = []
    · simp [hA0, hB0, inlineOnPart]
    · simp [hA0, hB0, inlineOnPart, inlinePass_of_noDollar B hB hB0]
  · by_cases hB0 : B = []
    · simp [hA0, hB0, inlineOnPart, inlinePass_of_noDollar A hA hA0]
    · simp [hA0, hB0, inlineOnPart, inlinePass_of_noDollar A hA hA0,
        inlinePass_of_noDollar B hB hB0]

/-- C1 witness: the concrete scenario `"Hello $$x+y=2$$ world"`. -/
theorem C1_witness :
    format_content_for_notion
        ("Hello ".toList ++ '$' :: '$' :: ("x+y=2".toList ++ '$' :: '$' :: " world".toList)) =
      (if "Hello ".toList = ([] : List Char) then [] else [.text "Hello ".toList]) ++
      [.equation (pyStrip "x+y=2".toList)] ++
      (if " world".toList = ([] : List Char) then [] else [.text " world".toList]) :=
  C1_theorem "Hello ".toList "x+y=2".toList " world".toList
    (by decide) (by decide) (by decide) (by decide) (by decide)

/-- C2 counterexample: on `"$$a$$b$$c$$"` the block-equation pass is not
greedy: it produces `[equation "a", text "b", equation "c"]`, not the single
equation run `"a$$b$$c"` the claim asserts. -/
theorem C2_counterexample :
    format_content_for_notion "$$a$$b$$c$$".toList =
      [.equation "a".toList, .text "b".toList, .equation "c".toList] ∧
    format_content_for_notion "$$a$$b$$c$$".toList ≠ [.equation "a$$b$$c".toList] := by
  decide

/-- C2 (amended): the block-equation pass matches the double-marker regions
lazily (non-greedily): each region ends at the earliest later `"$$"`
delimiter, so on inputs with several candidate closings the pass produces
several short regions instead of one long one.  For `'$'`-free `x`, `y`,
`z` with non-empty trims of `x` and `z`, the input `"$$x$$y$$z$$"` yields
`[equation x.trim, text y (if non-empty), equation z.trim]` — not the
single equation `x ++ "$$" ++ y ++ "$$" ++ z`. -/
theorem C2_theorem : ∀ (x y z : List Char),
    noDollar x = true → noDollar y = true → noDollar z = true →
    pyStrip x ≠ [] → pyStrip z ≠ [] →
    format_content_for_notion
        ('$' :: '$' :: (x ++ '$' :: '$' :: (y ++ '$' :: '$' :: (z ++ ['$', '$'])))) =
      [.equation (pyStrip x)] ++ (if y = [] then [] else [.text y]) ++
      [.equation (pyStrip z)] := by
  intro x y z hx hy hz hsx hsz
  have hxne : x ≠ [] := by
    intro h0; rw [h0] at hsx; exact hsx rfl
  have hzne : z ≠ [] := by
    intro h0; rw [h0] at hsz; exact hsz rfl
  have h1 : blockSplit ('$' :: '$' :: (x ++ '$' :: '$' :: (y ++ '$' :: '$' :: (z ++ ['$', '$'])))) =
      some ([], x, y ++ '$' :: '$' :: (z ++ ['$', '$'])) := by
    have := blockSplit_append [] x (y ++ '$' :: '$' :: (z ++ ['$', '$'])) rfl
      (splitAtTwoDollar_none_of_noDollar x hx) (getLast?_ne_of_noDollar x hx) hxne
    simpa using this
  have h2 : blockSplit (y ++ '$' :: '$' :: (z ++ ['$', '$'])) = some (y, z, []) := by
    have := blockSplit_append y z [] hy
      (splitAtTwoDollar_none_of_noDollar z hz) (getLast?_ne_of_noDollar z hz) hzne
    exact this
  unfold format_content_for_notion
  rw [blockPass_split_step _ _ _ _ h1, blockPass_split_step _ _ _ _ h2,
      if_neg hsx, if_neg hsz]
  by_cases hy0 : y = []
  · simp [hy0, inlineOnPart, blockPass_nil]
  · simp [hy0, inlineOnPart, blockPass_nil, inlinePass_of_noDollar y hy hy0]

theorem textConcat_append : ∀ (xs ys : List RTItem),
    textConcat (xs ++ ys) = textConcat xs ++ textConcat ys := by
  intro xs ys
  induction xs with
  | nil => rfl
  | cons h t ih =>
    cases h with
    | text c => simp [textConcat, ih]
    | equation e => simp [textConcat, ih]

theorem textConcat_inlinePassF : ∀ (n : Nat) (l : List Char), l.length ≤ n →
    textConcat (inlinePassF n l) = eraseInlineF n l := by
  intro n
  induction n with
  | zero =>
    intro l hl
    have : l = [] := by
      cases l with
      | nil => rfl
      | cons a t => simp at hl
    rw [this]; rfl
  | succ n ih =>
    intro l hl
    simp only [inlinePassF, eraseInlineF]
    cases hfi : findInline l with
    | none =>
      by_cases h0 : l = [] <;> simp [h0, textConcat]
    | some tr =>
      obtain ⟨pre, content, rest⟩ := tr
      obtain ⟨hsh, hcne⟩ := findInline_sound l pre content rest hfi
      have hcpos : 0 < content.length := List.length_pos.mpr hcne
      have hrest : rest.length ≤ n := by
        have : l.length = pre.length + 1 + (content.length + 1 + rest.length) := by
          rw [hsh]; simp [List.length_append]; omega
        omega
      rw [textConcat_append, textConcat_append, ih rest hrest]
      by_cases hp : pre = [] <;> by_cases hs : pyStrip content = [] <;>
        simp [hp, hs, textConcat]

theorem textConcat_inlinePass : ∀ (l : List Char),
    textConcat (inlinePass l) = eraseInline l := by
  intro l
  exact textConcat_inlinePassF l.length l (le_refl _)

theorem textConcat_blockPassF : ∀ (n : Nat) (l : List Char), l.length ≤ n →
    textConcat (((blockPassF n l).map inlineOnPart).flatten) = eraseRegionsF n l := by
  intro n
  induction n with
  | zero =>
    intro l hl
    have : l = [] := by
      cases l with
      | nil => rfl
      | cons a t => simp at hl
    rw [this]; rfl
  | succ n ih =>
    intro l hl
    simp only [blockPassF, eraseRegionsF]
    cases hbs : blockSplit l with
    | none =>
      by_cases h0 : l = []
      · simp [h0, textConcat, eraseInline, eraseInlineF]
      · simp only [h0, if_neg, if_false]
        simp [inlineOnPart, textConcat_inlinePass]
    | some tr =>
      obtain ⟨p, c, r⟩ := tr
      obtain ⟨hsh, hcne⟩ := blockSplit_sound l p c r hbs
      have hcpos : 0 < c.length := List.length_pos.mpr hcne
      have hrest : r.length ≤ n := by
        have : l.length = p.length + 2 + (c.length + 2 + r.length) := by
          rw [hsh]; simp [List.length_append]; omega
        omega
      rw [List.map_append, List.map_append, List.flatten_append, List.flatten_append,
        textConcat_append, textConcat_append, ih r hrest]
      by_cases hp : p = [] <;> by_cases hs : pyStrip c = [] <;>
        simp [hp, hs, textConcat, inlineOnPart, textConcat_inlinePass,
          eraseInline, eraseInlineF]

/-- C5: segmentation is order-preserving and lossless over non-equation
text: for every input, concatenating the values of all text runs returned
by `format_content_for_notion`, in order, equals the input with every
equation-delimited region (including its delimiters) removed, where the
removed regions are exactly those the two passes match. -/
theorem C5_theorem : ∀ (l : List Char),
    textConcat (format_content_for_notion l) = eraseRegions l := by
  intro l
  unfold format_content_for_notion blockPass eraseRegions
  exact textConcat_blockPassF l.length l (le_refl _)

/-- C2 witness: the concrete instance `x = "a"`, `y = "b"`, `z = "c"`. -/
theorem C2_witness :
    format_content_for_notion
        ('$' :: '$' :: ("a".toList ++ '$' :: '$' :: ("b".toList ++ '$' :: '$' :: ("c".toList ++ ['$', '$'])))) =
      [.equation (pyStrip "a".toList)] ++
      (if "b".toList = ([] : List Char) then [] else [.text "b".toList]) ++
      [.equation (pyStrip "c".toList)] :=
  C2_theorem "a".toList "b".toList "c".toList
    (by decide) (by decide) (by decide) (by decide) (by decide)

theorem noDollar_append : ∀ (a b : List Char),
    noDollar (a ++ b) = (noDollar a && noDollar b) := by
  intro a b
  induction a with
  | nil => simp [noDollar]
  | cons c t ih => simp [noDollar, ih, Bool.and_assoc]

theorem richTextContent_aux : ∀ (runs : List RTItem) (acc : List Char),
    runs.foldl (fun acc item =>
      acc ++ match item with
      | .text c => c
      | .equation e => '$' :: '$' :: ' ' :: (e ++ [' ', '$', '$'])) acc =
    acc ++ runsFlat runs := by
  intro runs
  induction runs with
  | nil => intro acc; simp [runsFlat]
  | cons h t ih =>
    intro acc
    cases h with
    | text c => simp [List.foldl_cons, ih, runsFlat, List.append_assoc]
    | equation e => simp [List.foldl_cons, ih, runsFlat, List.append_assoc]

theorem richTextContent_eq_runsFlat : ∀ (runs : List RTItem),
    richTextContent runs = runsFlat runs := by
  intro runs
  unfold richTextContent
  rw [richTextContent_aux runs []]
  rfl

/-- The first block-equation match on `t ++ "$$ " ++ e ++ " $$" ++ B` for
dollar-free `t` and `e` is the written wrapper. -/
theorem blockSplit_wrap : ∀ (t e B : List Char), noDollar t = true → noDollar e = true →
    blockSplit (t ++ '$' :: '$' :: ' ' :: (e ++ ' ' :: '$' :: '$' :: B)) =
      some (t, ' ' :: (e ++ [' ']), B) := by
  intro t e B ht he
  have hE : noDollar (' ' :: (e ++ [' '])) = true := by
    simp [noDollar, noDollar_append, he]
  have h := blockSplit_append t (' ' :: (e ++ [' '])) B ht
    (splitAtTwoDollar_none_of_noDollar _ hE) (getLast?_ne_of_noDollar _ hE) (by simp)
  have hs : t ++ '$' :: '$' :: ((' ' :: (e ++ [' '])) ++ '$' :: '$' :: B) =
      t ++ '$' :: '$' :: ' ' :: (e ++ ' ' :: '$' :: '$' :: B) := by
    simp [List.append_assoc]
  rw [hs] at h
  exact h

theorem blockPass_runsFlat_aux : ∀ (N : Nat) (runs : List RTItem), runs.length ≤ N →
    goodRuns runs = true → blockPass (runsFlat runs) = runs.map normRun := by
  intro N
  induction N with
  | zero =>
    intro runs hlen _
    have : runs = [] := by
      cases runs with
      | nil => rfl
      | cons a t => simp at hlen
    rw [this]; rfl
  | succ N ih =>
    intro runs hlen hgood
    match runs with
    | [] => rfl
    | .text t :: rest =>
      simp only [goodRuns, Bool.and_eq_true] at hgood
      obtain ⟨⟨⟨ht, hnd⟩, hna⟩, hgr⟩ := hgood
      have htne : t ≠ [] := by
        intro h0; rw [h0] at ht; simp at ht
      cases rest with
      | nil =>
        show blockPass (t ++ runsFlat []) = [.text t]
        rw [show runsFlat ([] : List RTItem) = [] from rfl, List.append_nil,
          blockPass_of_noDollar t hnd, if_neg htne]
      | cons h2 r2 =>
        cases h2 with
        | text t2 => simp [headIsText] at hna
        | equation e =>
          simp only [goodRuns, Bool.and_eq_true] at hgr
          obtain ⟨⟨he, hse⟩, hg2⟩ := hgr
          have hsene : pyStrip e ≠ [] := by
            intro h0; rw [h0] at hse; simp at hse
          have hw := blockSplit_wrap t e (runsFlat r2) hnd he
          show blockPass (t ++ '$' :: '$' :: ' ' :: (e ++ ' ' :: '$' :: '$' :: runsFlat r2)) =
            .text t :: .equation (pyStrip e) :: r2.map normRun
          rw [blockPass_split_step _ _ _ _ hw, if_neg htne, pyStrip_pad, if_neg hsene,
            ih r2 (by simp at hlen; omega) hg2]
          rfl
    | .equation e :: rest =>
      simp only [goodRuns, Bool.and_eq_true] at hgood
      obtain ⟨⟨he, hse⟩, hgr⟩ := hgood
      have hsene : pyStrip e ≠ [] := by
        intro h0; rw [h0] at hse; simp at hse
      have hw := blockSplit_wrap [] e (runsFlat rest) rfl he
      simp only [List.nil_append] at hw
      show blockPass ('$' :: '$' :: ' ' :: (e ++ ' ' :: '$' :: '$' :: runsFlat rest)) =
        .equation (pyStrip e) :: rest.map normRun
      rw [blockPass_split_step _ _ _ _ hw, pyStrip_pad, if_neg hsene,
        ih rest (by simp at hlen; omega) hgr]
      rfl

/-- Pass 2 leaves the parts produced from a good run list untouched. -/
theorem inlineOnParts_of_good : ∀ (runs : List RTItem), goodRuns runs = true →
    (((runs.map normRun)).map inlineOnPart).flatten = runs.map normRun := by
  intro runs
  induction runs with
  | nil => intro _; rfl
  | cons h t ih =>
    intro hgood
    cases h with
    | text c =>
      simp only [goodRuns, Bool.and_eq_true] at hgood
      obtain ⟨⟨⟨hc, hnd⟩, _⟩, hgr⟩ := hgood
      have hcne : c ≠ [] := by
        intro h0; rw [h0] at hc; simp at hc
      have ihh := ih hgr
      rw [List.map_map] at ihh
      simp [normRun, inlineOnPart, inlinePass_of_noDollar c hnd hcne, ihh]
    | equation e =>
      simp only [goodRuns, Bool.and_eq_true] at hgood
      obtain ⟨⟨_, _⟩, hgr⟩ := hgood
      have ihh := ih hgr
      rw [List.map_map] at ihh
      simp [normRun, inlineOnPart, ihh]

/-- C10 counterexample: a paragraph block whose rich text is two adjacent
non-empty dollar-free text runs satisfies every hypothesis of the claim,
yet segmenting the normalized content returns the two runs merged into a
single text run, not the original run sequence. -/
theorem C10_counterexample :
    extractRow ⟨"i", "paragraph", false, some [.text ['a'], .text ['b']], none, none⟩ =
      .ok ⟨"i", "paragraph", ['a', 'b']⟩ ∧
    format_content_for_notion ['a', 'b'] = [.text ['a', 'b']] ∧
    [RTItem.text ['a', 'b']] ≠ [.text ['a'], .text ['b']].map normRun := by
  refine ⟨rfl, rfl, ?_⟩
  decide

/-- C10 (amended): for every block of the rich-text types whose runs are
non-empty dollar-free text runs and equation runs with dollar-free,
trim-non-empty expressions, and in which no two text runs are adjacent
(adjacent text runs merge into one run in the flat content), segmenting the
normalized content reproduces the run sequence in order — text runs
verbatim, equation expressions trimmed. -/
theorem C10_theorem : ∀ (b : Block) (runs : List RTItem),
    b.richText = some runs →
    b.type ∈ (["paragraph", "heading_1", "heading_2", "heading_3", "quote",
      "bulleted_list_item"] : List String) →
    goodRuns runs = true →
    extractRow b = .ok ⟨b.id, b.type, richTextContent runs⟩ ∧
    format_content_for_notion (richTextContent runs) = runs.map normRun := by
  intro b runs hrt _htype hgood
  constructor
  · simp [extractRow, hrt]
  · rw [richTextContent_eq_runsFlat]
    unfold format_content_for_notion
    rw [blockPass_runsFlat_aux runs.length runs (le_refl _) hgood]
    exact inlineOnParts_of_good runs hgood

/-- C10 witness: a paragraph with runs `[text "h", equation "x", text "t"]`. -/
theorem C10_witness :
    extractRow ⟨"w", "paragraph", false, some [.text ['h'], .equation ['x'], .text ['t']], none, none⟩ =
      .ok ⟨"w", "paragraph", richTextContent [.text ['h'], .equation ['x'], .text ['t']]⟩ ∧
    format_content_for_notion (richTextContent [.text ['h'], .equation ['x'], .text ['t']]) =
      [RTItem.text ['h'], .equation ['x'], .text ['t']].map normRun :=
  C10_theorem ⟨"w", "paragraph", false, some [.text ['h'], .equation ['x'], .text ['t']], none, none⟩
    [.text ['h'], .equation ['x'], .text ['t']] rfl (by decide) (by decide)

theorem blocks_to_dataframe_error : ∀ (blocks : List Block) (b : Block) (msg : String),
    b ∈ blocks → extractRow b = .error msg →
    ∃ m, blocks_to_dataframe blocks = .error m := by
  intro blocks
  induction blocks with
  | nil => intro b msg hb _; cases hb
  | cons x xs ih =>
    intro b msg hb herr
    rcases List.mem_cons.mp hb with h | h
    · subst h
      exact ⟨msg, by simp [blocks_to_dataframe, herr]⟩
    · obtain ⟨m, hm⟩ := ih b msg h herr
      cases hx : extractRow x with
      | error e => exact ⟨e, by simp [blocks_to_dataframe, hx]⟩
      | ok row => exact ⟨m, by simp [blocks_to_dataframe, hx, hm]⟩

/-- C3 counterexample: a batch of one well-formed paragraph block followed
by one malformed code block (its payload has neither a `rich_text` nor a
`text` field, so extraction raises KeyError) normalizes to the empty result
set: no flat record is produced for the well-formed block either, so the
failure is not isolated to the malformed block. -/
theorem C3_counterexample :
    extractRow ⟨"good", "paragraph", false, some [.text "hi".toList], none, none⟩ =
      .ok ⟨"good", "paragraph", "hi".toList⟩ ∧
    to_dataframe_safe
      [⟨"good", "paragraph", false, some [.text "hi".toList], none, none⟩,
       ⟨"bad", "code", false, none, none, none⟩] = [] :=
  ⟨rfl, rfl⟩

/-- C3 (amended): a per-block extraction failure is not isolated: the
exception aborts `blocks_to_dataframe` for the whole batch, and
`to_dataframe_safe` then falls back to the empty result set, so no flat
record is produced for any block of the batch, well-formed or not. -/
theorem C3_theorem : ∀ (blocks : List Block) (b : Block) (msg : String),
    b ∈ blocks → extractRow b = .error msg → to_dataframe_safe blocks = [] := by
  intro blocks b msg hb herr
  obtain ⟨m, hm⟩ := blocks_to_dataframe_error blocks b msg hb herr
  unfold to_dataframe_safe
  rw [hm]

/-- C3 witness: the malformed code block aborts a three-block batch. -/
theorem C3_witness :
    to_dataframe_safe
      [⟨"g1", "paragraph", false, some [.text "a".toList], none, none⟩,
       ⟨"bad", "code", false, none, none, none⟩,
       ⟨"g2", "heading_1", false, some [.text "b".toList], none, none⟩] = [] :=
  C3_theorem _ ⟨"bad", "code", false, none, none, none⟩ "KeyError: text"
    (by simp) rfl

/-- C4: for every block of type `code` whose payload carries its runs in
the `text` field the source reads (the branch is only reached when the
payload has no `rich_text` key), normalization sets the flat record's
content to the text of the first run only; every run after the first is
discarded. -/
theorem C4_theorem : ∀ (b : Block) (c : List Char) (rest : List RTItem),
    b.type = "code" → b.richText = none → b.codeText = some (.text c :: rest) →
    extractRow b = .ok ⟨b.id, "code", c⟩ := by
  intro b c rest htype hrt hct
  simp [extractRow, hrt, htype, hct]

/-- C4 witness: a code block with two runs keeps only the first. -/
theorem C4_witness :
    extractRow ⟨"k", "code", false, none,
      some [.text "x".toList, .text "y".toList], none⟩ = .ok ⟨"k", "code", "x".toList⟩ :=
  C4_theorem ⟨"k", "code", false, none, some [.text "x".toList, .text "y".toList], none⟩
    "x".toList [.text "y".toList] rfl rfl rfl

/-- C8: reassembly is asymmetric: a paragraph record whose content segments
to an empty run list produces no outbound block, while a heading, quote, or
bulleted-list record always produces exactly one outbound block, even when
its segmented run list is empty. -/
theorem C8_theorem : ∀ (row : Row),
    (row.type = "paragraph" → format_content_for_notion row.content = [] →
      combineRow row = []) ∧
    (row.type ∈ (["heading_1", "heading_2", "heading_3", "quote",
        "bulleted_list_item"] : List String) →
      combineRow row = [.withRichText row.type (format_content_for_notion row.content)]) := by
  intro row
  constructor
  · intro ht hc
    simp [combineRow, ht, hc]
  · intro hmem
    simp only [List.mem_cons, List.not_mem_nil, or_false] at hmem
    rcases hmem with h | h | h | h | h <;> simp [combineRow, h]

/-- C8 witness: an empty paragraph is dropped; a heading_1 with empty
content is still emitted. -/
theorem C8_witness :
    combineRow ⟨"p", "paragraph", []⟩ = [] ∧
    combineRow ⟨"h", "heading_1", []⟩ =
      [.withRichText "heading_1" (format_content_for_notion [])] := by
  have h1 := C8_theorem ⟨"p", "paragraph", []⟩
  have h2 := C8_theorem ⟨"h", "heading_1", []⟩
  exact ⟨h1.1 rfl rfl, h2.2 (by decide)⟩

/-- C6: `get_all_blocks` flattens the block tree in depth-first pre-order:
each fetched child is appended, then its entire descendant subtree is
spliced immediately after it, before its next sibling — so fetching a node
`A` with children `[B, C]` where `B` has child `D` yields `[B, D, C]`
(`A`'s descendants, each parent immediately before its own subtree). -/
theorem C6_theorem :
    (∀ (ts : List BTree), get_all_blocks ts = preorderFlat ts) ∧
    (∀ (dB dC dD : Block),
      get_all_blocks [.node dB [.node dD []], .node dC []] =
        [{ dB with hasChildren := true }, { dD with hasChildren := false },
         { dC with hasChildren := false }]) := by
  have main : ∀ (ts : List BTree), get_all_blocks ts = preorderFlat ts := by
    intro ts
    induction ts using get_all_blocks.induct with
    | case1 => simp [get_all_blocks, preorderFlat]
    | case2 d cs ts ih1 ih2 =>
      simp only [get_all_blocks, preorderFlat]
      cases hcs : cs with
      | nil =>
        simp [serveBlock, preorderFlat, get_all_blocks, ih2]
      | cons c cs2 =>
        rw [hcs] at ih1
        have hch : (serveBlock (.node d (c :: cs2))).hasChildren = true := by
          simp [serveBlock]
        rw [hch, if_pos rfl, ih1, ih2]
  refine ⟨main, ?_⟩
  intro dB dC dD
  rw [main]
  simp [preorderFlat, serveBlock]

theorem upload_cons : ∀ (a : OutboundBlock) (l : List OutboundBlock) (n : Nat),
    upload_blocks_in_batches (a :: l) (n + 1) =
      ((a :: l).take (n + 1)) :: upload_blocks_in_batches ((a :: l).drop (n + 1)) (n + 1) := by
  intro a l n
  simp [upload_blocks_in_batches]

theorem upload_nil : ∀ (n : Nat), upload_blocks_in_batches [] n = [] := by
  intro n
  simp [upload_blocks_in_batches]

theorem upload_cons10 : ∀ (a : OutboundBlock) (l : List OutboundBlock),
    upload_blocks_in_batches (a :: l) 10 =
      ((a :: l).take 10) :: upload_blocks_in_batches ((a :: l).drop 10) 10 := by
  intro a l
  exact upload_cons a l 9

theorem C9_aux : ∀ (N : Nat) (l : List OutboundBlock), l.length ≤ N →
    (upload_blocks_in_batches l 10).length = (l.length + 9) / 10 ∧
    (upload_blocks_in_batches l 10).flatten = l ∧
    (∀ c ∈ upload_blocks_in_batches l 10, c.length ≤ 10) ∧
    (l ≠ [] → ∃ last, (upload_blocks_in_batches l 10).getLast? = some last ∧
      last.length = if l.length % 10 = 0 then 10 else l.length % 10) := by
  intro N
  induction N with
  | zero =>
    intro l hlen
    have h0 : l = [] := by
      cases l with
      | nil => rfl
      | cons a t => simp at hlen
    subst h0
    simp [upload_nil]
  | succ N ih =>
    intro l hlen
    cases l with
    | nil => simp [upload_nil]
    | cons a t =>
      have hstep := upload_cons10 a t
      have hdlen : ((a :: t).drop 10).length = (a :: t).length - 10 := by
        simp [List.length_drop]
      obtain ⟨ih1, ih2, ih3, ih4⟩ := ih ((a :: t).drop 10) (by
        rw [hdlen]
        simp only [List.length_cons]
        simp only [List.length_cons] at hlen
        omega)
      have hlc : (a :: t).length = t.length + 1 := by simp
      refine ⟨?_, ?_, ?_, ?_⟩
      · rw [hstep]
        simp only [List.length_cons, ih1, hdlen, hlc]
        omega
      · rw [hstep]
        simp only [List.flatten_cons, ih2]
        exact List.take_append_drop 10 (a :: t)
      · rw [hstep]
        intro c hc
        rcases List.mem_cons.mp hc with h | h
        · subst h
          simp [List.length_take]
        · exact ih3 c h
      · intro _
        by_cases hsmall : (a :: t).length ≤ 10
        · have hdnil : (a :: t).drop 10 = [] := List.drop_eq_nil_of_le hsmall
          rw [hstep, hdnil]
          refine ⟨(a :: t).take 10, ?_, ?_⟩
          · rw [upload_nil]; rfl
          · simp only [List.length_take]
            simp at hlc
            have h1 : 1 ≤ (a :: t).length := by simp
            rcases Nat.lt_or_ge (a :: t).length 10 with hl | hl
            · rw [if_neg (by omega)]
              omega
            · have h10 : (a :: t).length = 10 := by omega
              rw [h10]
              norm_num
        · have hdne : (a :: t).drop 10 ≠ [] := by
            intro hx
            have := congrArg List.length hx
            simp [List.length_drop] at this
            omega
          obtain ⟨last, hl1, hl2⟩ := ih4 hdne
          have hrne : upload_blocks_in_batches ((a :: t).drop 10) 10 ≠ [] := by
            intro hx
            rw [hx] at hl1
            cases hl1
          refine ⟨last, ?_, ?_⟩
          · rw [hstep]
            cases hru : upload_blocks_in_batches ((a :: t).drop 10) 10 with
            | nil => exact absurd hru hrne
            | cons u us =>
              rw [List.getLast?_cons_cons]
              rw [hru] at hl1
              exact hl1
          · have hmod : ((a :: t).drop 10).length % 10 = (a :: t).length % 10 := by
              rw [hdlen]; omega
            rw [hmod] at hl2
            exact hl2

/-- C9: for every outbound block list and `batch_size = 10`, the writer
issues exactly `ceil(n / 10)` requests, each carrying a contiguous slice of
at most 10 blocks in original order (their concatenation in request order
is the input list), and the last request carries `n mod 10` blocks (or 10
when `n` is a positive multiple of 10). -/
theorem C9_theorem :
    (∀ (blocks : List OutboundBlock),
      (upload_blocks_in_batches blocks 10).length = (blocks.length + 9) / 10 ∧
      (upload_blocks_in_batches blocks 10).flatten = blocks ∧
      ∀ c ∈ upload_blocks_in_batches blocks 10, c.length ≤ 10) ∧
    (∀ (blocks : List OutboundBlock), blocks ≠ [] →
      ∃ last, (upload_blocks_in_batches blocks 10).getLast? = some last ∧
        last.length = if blocks.length % 10 = 0 then 10 else blocks.length % 10) := by
  constructor
  · intro blocks
    obtain ⟨h1, h2, h3, _⟩ := C9_aux blocks.length blocks (le_refl _)
    exact ⟨h1, h2, h3⟩
  · intro blocks hne
    obtain ⟨_, _, _, h4⟩ := C9_aux blocks.length blocks (le_refl _)
    exact h4 hne

/-- C9 witness: 12 blocks are written as a batch of 10 and a batch of 2. -/
theorem C9_witness :
    (upload_blocks_in_batches (List.replicate 12 .divider) 10).flatten =
      List.replicate 12 OutboundBlock.divider ∧
    ∃ last, (upload_blocks_in_batches (List.replicate 12 .divider) 10).getLast? = some last ∧
      last.length = if (List.replicate 12 (OutboundBlock.divider)).length % 10 = 0 then 10
        else (List.replicate 12 (OutboundBlock.divider)).length % 10 :=
  ⟨(C9_theorem.1 (List.replicate 12 .divider)).2.1,
   C9_theorem.2 (List.replicate 12 .divider) (by decide)⟩

theorem retryOnce_ok : ∀ (oracle : Nat → FetchOutcome) (mR i a : Nat)
    (res : List Block) (hm : Bool),
    a < mR → oracle i = .ok res hm →
    retryOnce oracle mR i a = (some (res, hm), [], i + 1) := by
  intro oracle mR i a res hm h hok
  unfold retryOnce
  rw [dif_pos h, hok]

theorem retryOnce_allFail_aux : ∀ (mR : Nat) (oracle : Nat → FetchOutcome) (d i a : Nat),
    a + d = mR → 0 < d → (∀ k, k < d → oracle (i + k) = .fail) →
    retryOnce oracle mR i a =
      (none, (List.range (d - 1)).map (fun k => min (2 * (a + k + 1)) 5), i + d) := by
  intro mR oracle d
  induction d with
  | zero =>
    intro i a _ h0 _
    simp at h0
  | succ d ihd =>
    intro i a ha _ hf
    have haR : a < mR := by omega
    have hfail : oracle i = .fail := by
      have := hf 0 (by omega)
      simpa using this
    unfold retryOnce
    rw [dif_pos haR, hfail]
    cases d with
    | zero =>
      rw [if_neg (by omega)]
      simp
    | succ d2 =>
      rw [if_pos (by omega)]
      have hrec := ihd (i + 1) (a + 1) (by omega) (by omega) (fun k hk => by
        have := hf (k + 1) (by omega)
        rw [show i + 1 + k = i + (k + 1) from by omega]
        exact this)
      have hidx : i + 1 + (d2 + 1) = i + (d2 + 1 + 1) := by omega
      have hsl : min (2 * (a + 1)) 5 ::
          (List.range (d2 + 1 - 1)).map (fun k => min (2 * (a + 1 + k + 1)) 5) =
          (List.range (d2 + 1 + 1 - 1)).map (fun k => min (2 * (a + k + 1)) 5) := by
        rw [show d2 + 1 + 1 - 1 = (d2 + 1 - 1) + 1 from by omega,
          List.range_succ_eq_map, List.map_cons, List.map_map]
        congr 1
        refine List.map_congr_left ?_
        intro k _
        simp only [Function.comp_apply]
        congr 1
        omega
      simp only [hrec]
      rw [hsl, hidx]

theorem processResults_noChildren : ∀ (oracle : Nat → FetchOutcome) (mR fuel : Nat)
    (bs : List Block) (i : Nat),
    (∀ b ∈ bs, b.hasChildren = false) →
    processResults oracle mR fuel bs i = (bs, [], i) := by
  intro oracle mR fuel bs
  induction bs with
  | nil => intro i _; simp [processResults]
  | cons b t ih =>
    intro i hb
    have hbf : b.hasChildren = false := hb b (by simp)
    have hrec := ih i (fun x hx => hb x (by simp [hx]))
    simp [processResults, hbf, hrec]

/-- C7: a page request whose transient failures exhaust `maxRetries` makes
the fetch return the blocks accumulated so far for that subtree without
raising, and the delay slept before retry attempt `k + 1` is
`min (2 * k, 5)` time units.  Concretely, with `maxRetries = 3`, after one
successful page (`has_more` set) followed by three consecutive transient
failures, the fetch returns the accumulated blocks having slept exactly
`[2, 4]`, i.e. `2 + 4 = 6` time units in total; and in general a run of
`maxRetries` consecutive failures produces the sleeps
`min (2 * 1, 5), ..., min (2 * (maxRetries - 1), 5)` and no page. -/
theorem C7_theorem : ∀ (oracle : Nat → FetchOutcome) (bs : List Block) (f i : Nat),
    oracle i = .ok bs true →
    (∀ b ∈ bs, b.hasChildren = false) →
    oracle (i + 1) = .fail → oracle (i + 2) = .fail → oracle (i + 3) = .fail →
    (get_all_blocks_sched oracle 3 (f + 2) i = (bs, [2, 4], i + 4) ∧
      ([2, 4] : List Nat).sum = 2 + 4 ∧ 2 + 4 = 6) ∧
    (∀ (mR : Nat) (or2 : Nat → FetchOutcome) (j : Nat), 0 < mR →
      (∀ k, k < mR → or2 (j + k) = .fail) →
      retryOnce or2 mR j 0 =
        (none, (List.range (mR - 1)).map (fun k => min (2 * (k + 1)) 5), j + mR)) := by
  intro oracle bs f i hok hnc h1 h2 h3
  have hgen : ∀ (mR : Nat) (or2 : Nat → FetchOutcome) (j : Nat), 0 < mR →
      (∀ k, k < mR → or2 (j + k) = .fail) →
      retryOnce or2 mR j 0 =
        (none, (List.range (mR - 1)).map (fun k => min (2 * (k + 1)) 5), j + mR) := by
    intro mR or2 j hmr hf
    have := retryOnce_allFail_aux mR or2 mR j 0 (by omega) hmr hf
    simpa using this
  refine ⟨⟨?_, rfl, rfl⟩, hgen⟩
  have hr1 : retryOnce oracle 3 i 0 = (some (bs, true), [], i + 1) :=
    retryOnce_ok oracle 3 i 0 bs true (by omega) hok
  have hp : processResults oracle 3 (f + 1) bs (i + 1) = (bs, [], i + 1) :=
    processResults_noChildren oracle 3 (f + 1) bs (i + 1) hnc
  have hr2 : retryOnce oracle 3 (i + 1) 0 = (none, [2, 4], i + 4) := by
    have hfails : ∀ k, k < 3 → oracle (i + 1 + k) = .fail := by
      intro k hk
      match k, hk with
      | 0, _ => simpa using h1
      | 1, _ => rw [show i + 1 + 1 = i + 2 from by omega]; exact h2
      | 2, _ => rw [show i + 1 + 2 = i + 3 from by omega]; exact h3
    have := hgen 3 oracle (i + 1) (by omega) hfails
    simpa [List.range_succ] using this
  simp [get_all_blocks_sched, hr1, hr2, hp]

/-- C7 witness: the concrete schedule — one successful page then failures. -/
theorem C7_witness :
    get_all_blocks_sched
      (fun j => if j = 0 then FetchOutcome.ok [⟨"b", "paragraph", false, none, none, none⟩] true
                else .fail) 3 2 0 =
      ([⟨"b", "paragraph", false, none, none, none⟩], [2, 4], 4) :=
  ((C7_theorem
      (fun j => if j = 0 then FetchOutcome.ok [⟨"b", "paragraph", false, none, none, none⟩] true
                else .fail)
      [⟨"b", "paragraph", false, none, none, none⟩] 0 0
      rfl (by decide) rfl rfl rfl).1).1

end NotionAutoEq
